import Mathlib

/-!
A shallow embedding of the `crawler` package: the URL utilities from
`src/crawler/utils.py` (together with the parts of Python's `urllib.parse`
and `posixpath` that they call, modelled on CPython 3.11), and the crawl
engine from `src/crawler/core.py`.  Python strings are modelled as
`List Char`, Python ints as `Nat`, `None`-able values as `Option`, and
`ValueError` as `Except.error`.
-/

namespace Crawler

/-- Python strings are modelled as lists of characters. -/
abbrev Str := List Char

/-- ASCII letter test, matching Python `c.isascii() and c.isalpha()`
(codepoints 65–90 and 97–122). -/
def isAsciiAlpha (c : Char) : Bool :=
  (65 ≤ c.toNat && c.toNat ≤ 90) || (97 ≤ c.toNat && c.toNat ≤ 122)

/-- ASCII digit test (codepoints 48–57). -/
def isAsciiDigit (c : Char) : Bool :=
  48 ≤ c.toNat && c.toNat ≤ 57

/-- Characters allowed in a URL scheme (`urllib.parse.scheme_chars`). -/
def isSchemeChar (c : Char) : Bool :=
  isAsciiAlpha c || isAsciiDigit c || c = '+' || c = '-' || c = '.'

/-- Per-string lowercasing; `Char.toLower` lowers exactly the ASCII letters,
which agrees with Python `str.lower` on ASCII text. -/
def lowerStr (s : Str) : Str := s.map Char.toLower

/-- Python `s.split(c, 1)`: split at the first occurrence of `c`, or `none`
when `c` does not occur. -/
def splitOnce (c : Char) : Str → Option (Str × Str)
  | [] => none
  | x :: xs =>
    if x = c then some ([], xs)
    else
      match splitOnce c xs with
      | some (a, b) => some (x :: a, b)
      | none => none

/-- Split at the last occurrence of `c` (Python `rfind`-based splitting). -/
def splitLast (c : Char) (s : Str) : Option (Str × Str) :=
  match splitOnce c s.reverse with
  | some (a, b) => some (b.reverse, a.reverse)
  | none => none

/-- Python `str.strip()` over the whitespace characters `' '`, `'\t'`,
`'\r'`, `'\n'` (the ASCII fragment of Python's whitespace class). -/
def pyStrip (s : Str) : Str :=
  ((s.dropWhile Char.isWhitespace).reverse.dropWhile Char.isWhitespace).reverse

/-- Characters WHATWG-stripped from the front of a URL by `urlsplit`
(C0 controls and space). -/
def isC0OrSpace (c : Char) : Bool := c.toNat ≤ 32

/-- The unsafe characters `urllib.parse` removes from URLs everywhere:
tab, CR, LF. -/
def isUnsafeUrlChar (c : Char) : Bool := c = '\t' || c = '\r' || c = '\n'

/-- Result record of `urllib.parse.urlsplit`. -/
structure SplitResult where
  scheme : Str
  netloc : Str
  path : Str
  query : Str
  fragment : Str
deriving DecidableEq

/-- Does a run of characters form a valid scheme prefix (nonempty, first
character an ASCII letter, every character a scheme character)?  Mirrors the
scheme-detection loop in `urlsplit` (the `i > 0` guard makes the empty run
invalid). -/
def isValidSchemeRun : Str → Bool
  | [] => false
  | c :: cs => isAsciiAlpha c && (c :: cs).all isSchemeChar

/-- Characters that terminate the netloc (`_splitnetloc` stops at the first
of `'/'`, `'?'`, `'#'`). -/
def isNetlocDelim (c : Char) : Bool := c = '/' || c = '?' || c = '#'

/-- The cleaning `urlsplit` applies to the URL: strip leading C0
controls/space, remove tab/CR/LF everywhere. -/
def cleanUrl (s : Str) : Str :=
  (s.dropWhile isC0OrSpace).filter (fun c => !isUnsafeUrlChar c)

/-- The cleaning `urlsplit` applies to its `scheme` default argument:
`scheme.strip(...)` on both ends plus unsafe-byte removal. -/
def cleanDefaultScheme (s : Str) : Str :=
  (((s.dropWhile isC0OrSpace).reverse.dropWhile isC0OrSpace).reverse).filter
    (fun c => !isUnsafeUrlChar c)

/-- The scheme-detection step of `urlsplit`: split at the first `':'` when
everything before it is a valid scheme run, lowercasing it; otherwise keep
the (cleaned) default scheme and the whole URL. -/
def splitScheme (dflt url1 : Str) : Str × Str :=
  match splitOnce ':' url1 with
  | some (before, after) =>
    if isValidSchemeRun before then (lowerStr before, after) else (dflt, url1)
  | none => (dflt, url1)

/-- The netloc step of `urlsplit` (`_splitnetloc` after a leading `'//'`):
the netloc runs to the first `'/'`, `'?'` or `'#'`. -/
def splitNetloc (url2 : Str) : Str × Str :=
  if url2.take 2 = ['/', '/'] then
    ((url2.drop 2).takeWhile (fun c => !isNetlocDelim c),
     (url2.drop 2).dropWhile (fun c => !isNetlocDelim c))
  else ([], url2)

/-- The "Invalid IPv6 URL" check of `urlsplit`: a `'['` without `']'` or
vice versa raises `ValueError`. -/
def bracketMismatch (netloc : Str) : Bool :=
  (netloc.contains '[' && !netloc.contains ']') ||
    (netloc.contains ']' && !netloc.contains '[')

/-- The fragment step of `urlsplit`: split at the first `'#'`. -/
def splitFragment (url3 : Str) : Str × Str :=
  match splitOnce '#' url3 with
  | some (a, b) => (a, b)
  | none => (url3, [])

/-- The query step of `urlsplit`: split at the first `'?'`. -/
def splitQuery (url4 : Str) : Str × Str :=
  match splitOnce '?' url4 with
  | some (a, b) => (a, b)
  | none => (url4, [])

/-- Python `urllib.parse.urlsplit` (CPython 3.11), assembled from the steps
above: cleaning, scheme detection, netloc splitting (raising `ValueError` on
a bracket mismatch, the "Invalid IPv6 URL" check), then fragment and query
splitting (`allow_fragments=True` at every call site of the crawler).  The
NFKC netloc check, which is a no-op for ASCII netlocs, and the
bracketed-host validation are not modelled. -/
def urlsplitE (url0 : Str) (defaultScheme : Str) : Except Unit SplitResult :=
  let p1 := splitScheme (cleanDefaultScheme defaultScheme) (cleanUrl url0)
  let p2 := splitNetloc p1.2
  if bracketMismatch p2.1 then .error ()
  else
    let p3 := splitFragment p2.2
    let p4 := splitQuery p3.1
    .ok ⟨p1.1, p2.1, p4.1, p4.2, p3.2⟩

/-- Schemes for which `urljoin` honours relative references
(`urllib.parse.uses_relative`). -/
def usesRelative : List Str :=
  ["", "ftp", "http", "gopher", "nntp", "imap", "wais", "file", "https",
   "shttp", "mms", "prospero", "rtsp", "rtspu", "sftp", "svn", "svn+ssh",
   "ws", "wss"].map String.data

/-- Schemes with a network location (`urllib.parse.uses_netloc`). -/
def usesNetloc : List Str :=
  ["", "ftp", "http", "gopher", "nntp", "telnet", "imap", "wais", "file",
   "mms", "https", "shttp", "snews", "prospero", "rtsp", "rtspu", "rsync",
   "svn", "svn+ssh", "sftp", "nfs", "git", "git+ssh", "ws", "wss"].map
    String.data

/-- Schemes for which `urlparse` splits path parameters
(`urllib.parse.uses_params`). -/
def usesParams : List Str :=
  ["", "ftp", "hdl", "prospero", "http", "imap", "https", "shttp", "rtsp",
   "rtspu", "sip", "sips", "mms", "sftp", "tel"].map String.data

/-- Python `urllib.parse._splitparams`: split the path parameters off at the
first `';'` at or after the last `'/'` of the path. -/
def splitparams (p : Str) : Str × Str :=
  match splitLast '/' p with
  | some (pre, suf) =>
    match splitOnce ';' suf with
    | some (a, b) => (pre ++ '/' :: a, b)
    | none => (p, [])
  | none =>
    match splitOnce ';' p with
    | some (a, b) => (a, b)
    | none => (p, [])

/-- Result record of `urllib.parse.urlparse` (a split result plus path
parameters). -/
structure ParseResult where
  scheme : Str
  netloc : Str
  path : Str
  params : Str
  query : Str
  fragment : Str
deriving DecidableEq

/-- Python `urllib.parse.urlparse`. -/
def urlparseE (url : Str) (defaultScheme : Str) : Except Unit ParseResult :=
  match urlsplitE url defaultScheme with
  | .error e => .error e
  | .ok s =>
    if s.scheme ∈ usesParams ∧ ';' ∈ s.path then
      let pp := splitparams s.path
      .ok ⟨s.scheme, s.netloc, pp.1, pp.2, s.query, s.fragment⟩
    else
      .ok ⟨s.scheme, s.netloc, s.path, [], s.query, s.fragment⟩

/-- Python `urllib.parse.urlunsplit`. -/
def urlunsplit (scheme netloc url query fragment : Str) : Str :=
  let url :=
    if netloc ≠ [] ∨ (url ≠ [] ∧ url.take 2 = ['/', '/']) then
      let url := if url ≠ [] ∧ url.take 1 ≠ ['/'] then '/' :: url else url
      '/' :: '/' :: (netloc ++ url)
    else url
  let url := if scheme ≠ [] then scheme ++ ':' :: url else url
  let url := if query ≠ [] then url ++ '?' :: query else url
  if fragment ≠ [] then url ++ '#' :: fragment else url

/-- Python `urllib.parse.urlunparse`. -/
def urlunparse (scheme netloc path params query fragment : Str) : Str :=
  let url := if params ≠ [] then path ++ ';' :: params else path
  urlunsplit scheme netloc url query fragment

/-- Python `ParseResult.geturl`. -/
def geturl (p : ParseResult) : Str :=
  urlunparse p.scheme p.netloc p.path p.params p.query p.fragment

/-- The dot-segment resolution loop of `urljoin`; `resolved` is kept
reversed, so Python's `resolved_path.pop()` (with `IndexError` ignored) is
`List.tail`. -/
def resolveSegments (resolved : List Str) : List Str → List Str
  | [] => resolved
  | seg :: rest =>
    if seg = ['.', '.'] then resolveSegments resolved.tail rest
    else if seg = ['.'] then resolveSegments resolved rest
    else resolveSegments (seg :: resolved) rest

/-- Python slice assignment `segments[1:-1] = filter(None, segments[1:-1])`:
keep the first and last element, drop the empty segments in between. -/
def filterMiddle : List Str → List Str
  | [] => []
  | [a] => [a]
  | a :: b :: rest =>
    a :: ((b :: rest).dropLast.filter (fun s => !s.isEmpty) ++
      [(b :: rest).getLast (List.cons_ne_nil b rest)])

/-- Python `urllib.parse.urljoin` (CPython 3.11). -/
def urljoinE (base url : Str) : Except Unit Str :=
  if base = [] then .ok url
  else if url = [] then .ok base
  else
    match urlparseE base [] with
    | .error e => .error e
    | .ok b =>
      match urlparseE url b.scheme with
      | .error e => .error e
      | .ok u =>
        if u.scheme ≠ b.scheme ∨ u.scheme ∉ usesRelative then .ok url
        else if u.scheme ∈ usesNetloc ∧ u.netloc ≠ [] then
          .ok (urlunparse u.scheme u.netloc u.path u.params u.query u.fragment)
        else
          let netloc := if u.scheme ∈ usesNetloc then b.netloc else u.netloc
          if u.path = [] ∧ u.params = [] then
            let query := if u.query = [] then b.query else u.query
            .ok (urlunparse u.scheme netloc b.path b.params query u.fragment)
          else
            let baseParts0 := b.path.splitOn '/'
            let baseParts :=
              if baseParts0.getLast? ≠ some [] then baseParts0.dropLast
              else baseParts0
            let segments :=
              if u.path.take 1 = ['/'] then u.path.splitOn '/'
              else filterMiddle (baseParts ++ u.path.splitOn '/')
            let resolved := (resolveSegments [] segments).reverse
            let resolved :=
              if segments.getLast? = some ['.'] ∨ segments.getLast? = some ['.', '.'] then
                resolved ++ [[]]
              else resolved
            let joined := List.intercalate ['/'] resolved
            let newPath := if joined = [] then ['/'] else joined
            .ok (urlunparse u.scheme netloc newPath u.params u.query u.fragment)

/-- Python `crawler.utils.get_domain`: the netloc of the parsed URL, `none`
on `ValueError`. -/
def get_domain (url : Str) : Option Str :=
  match urlparseE url [] with
  | .ok p => some p.netloc
  | .error _ => none

/-- Python `posixpath.splitext`: split the extension off at the last `'.'`,
provided it lies after the last `'/'` and the last path segment does not
consist solely of leading dots up to that point. -/
def splitext (p : Str) : Str × Str :=
  let name :=
    match splitLast '/' p with
    | some (_, suf) => suf
    | none => p
  match splitLast '.' name with
  | some (stem, extTail) =>
    if stem.any (fun c => c != '.') then
      (p.take (p.length - (extTail.length + 1)), '.' :: extTail)
    else (p, [])
  | none => (p, [])

/-- Python `crawler.utils.get_extension`. -/
def get_extension (url : Str) : Option Str :=
  match urlparseE url [] with
  | .ok parsed =>
    if parsed.path ≠ [] then
      let ext := (splitext parsed.path).2
      if ext ≠ [] then some (lowerStr ext) else none
    else none
  | .error _ => none

/-- Python truthiness of an `Optional[Set[str]]` argument: `None` and the
empty collection are falsy. -/
def truthyOpt (o : Option (List Str)) : Bool :=
  match o with
  | none => false
  | some l => !l.isEmpty

/-- The extension test of `is_valid_url`: Python `ext and ext in
blacklist_extensions`. -/
def extBlacklisted (url : Str) (bl : List Str) : Bool :=
  match get_extension url with
  | some e => !e.isEmpty && decide (e ∈ bl)
  | none => false

/-- The scheme test of `is_valid_url`: Python
`parsed.scheme in ('http', 'https')`. -/
def schemeOK (p : ParseResult) : Bool :=
  decide (p.scheme = "http".data) || decide (p.scheme = "https".data)

/-- The domain rejection test of `is_valid_url`: Python
`allowed_domains and (not domain or domain not in allowed_domains)`. -/
def domainRejected (p : ParseResult) (allowedDomains : Option (List Str)) : Bool :=
  truthyOpt allowedDomains &&
    (p.netloc.isEmpty || !decide (p.netloc ∈ allowedDomains.getD []))

/-- The extension rejection test of `is_valid_url`: Python
`blacklist_extensions and ext and ext in blacklist_extensions`. -/
def extRejected (url : Str) (blacklistExtensions : Option (List Str)) : Bool :=
  truthyOpt blacklistExtensions && extBlacklisted url (blacklistExtensions.getD [])

/-- Python `crawler.utils.is_valid_url`.  Sets are modelled as lists with
membership semantics. -/
def is_valid_url (url : Str) (allowedDomains blacklistExtensions : Option (List Str)) :
    Bool :=
  match urlparseE url [] with
  | .error _ => false
  | .ok parsed =>
    if !schemeOK parsed then false
    else if domainRejected parsed allowedDomains then false
    else if extRejected url blacklistExtensions then false
    else true

/-- Python `crawler.utils.normalize_url`. -/
def normalize_url (baseUrl link : Str) : Option Str :=
  match urljoinE baseUrl (pyStrip link) with
  | .error _ => none
  | .ok absoluteUrl =>
    match urlparseE absoluteUrl [] with
    | .error _ => none
    | .ok parsed =>
      if parsed.scheme = [] ∨ parsed.netloc = [] then none
      else some (geturl { parsed with fragment := [] })

/-- One record per processed URL (`crawler.models.CrawlResult`); the
wall-clock `timestamp` field is not modelled. -/
structure CrawlResult where
  url : Str
  depth : Nat
  status_code : Option Nat := none
  content_size : Option Nat := none
  title : Option Str := none
  error : Option Str := none
deriving DecidableEq

/-- Lookup in a Python dict with default 0 (`d.get(k, 0)`), the dict being
modelled as an association list. -/
def dictGet [DecidableEq α] (m : List (α × Nat)) (k : α) : Nat :=
  match m with
  | [] => 0
  | (k', v) :: rest => if k' = k then v else dictGet rest k

/-- The histogram update `d[k] = d.get(k, 0) + 1` on an association list. -/
def dictBump [DecidableEq α] (m : List (α × Nat)) (k : α) : List (α × Nat) :=
  match m with
  | [] => [(k, 1)]
  | (k', v) :: rest => if k' = k then (k', v + 1) :: rest else (k', v) :: dictBump rest k

/-- Sum of all counts stored in a histogram. -/
def dictSum (m : List (α × Nat)) : Nat := (m.map Prod.snd).sum

/-- Running counters of one crawl (`crawler.models.CrawlStats`); the timing
fields are not modelled. -/
structure CrawlStats where
  domain_counts : List (Str × Nat) := []
  status_code_counts : List (Nat × Nat) := []
  total_errors_processing : Nat := 0
  total_errors_request : Nat := 0
  total_urls_processed : Nat := 0
deriving DecidableEq

/-- Outcome of the HTML-extraction capability on a fetched page: either a
processing failure (an exception raised while parsing, caught by the broad
`except Exception` branch of `_process_url`), or the first title element's
string (Python `None` when absent) together with the `href` targets of all
anchors in document order. -/
inductive HtmlParseOutcome where
  | fail (errName : Str)
  | parsed (title : Option Str) (links : List Str)
deriving DecidableEq

/-- Outcome of the transport capability for one URL: a transport-level
failure (`httpx.RequestError`, carrying the exception's type name), or a
response with status code, content byte length, `content-type` header value
and the page's extraction outcome. -/
inductive FetchResult where
  | requestError (errName : Str)
  | response (status : Nat) (contentSize : Nat) (contentType : Str)
      (html : HtmlParseOutcome)
deriving DecidableEq

/-- The transport capability: what fetching each URL yields.  The crawler
treats it as an injected collaborator, so the model quantifies over it. -/
def Fetcher := Str → FetchResult

/-- Crawler configuration after `Crawler.__init__` has normalised its
arguments: `allowed_domains` is `None` or a set, `blacklist_extensions` is
always a set. -/
structure Config where
  start_url : Str
  max_depth : Nat
  allowed_domains : Option (List Str)
  blacklist_extensions : List Str

/-- Mutable crawl state shared by the workers: the FIFO queue of
`(url, depth)` tasks, the visited set, the result collection and the
statistics. -/
structure CrawlState where
  queue : List (Str × Nat)
  visited : List Str
  results : List CrawlResult
  stats : CrawlStats
deriving DecidableEq

/-- Python `'text/html' in response.headers.get('content-type', '').lower()`. -/
def contentTypeIsHtml (h : Str) : Bool :=
  decide (List.IsInfix "text/html".data (lowerStr h))

/-- Python `response.raise_for_status()` raises `httpx.HTTPStatusError`
exactly when the response is not a 2xx success. -/
def isSuccessStatus (s : Nat) : Bool := 200 ≤ s && s ≤ 299

/-- The link-discovery loop of `_process_url`: for each anchor `href`,
normalize against the fetched URL, check the visited set, the scope filter,
and the visited set again (the code's racy double check), and collect the
accepted `(url, depth+1)` tasks in order for enqueueing. -/
def discoverTasks (cfg : Config) (visited : List Str) (url : Str) (depth : Nat)
    (links : List Str) : List (Str × Nat) :=
  links.foldl
    (fun acc href =>
      match normalize_url url href with
      | some nu =>
        if nu ≠ [] ∧ nu ∉ visited then
          if is_valid_url nu cfg.allowed_domains (some cfg.blacklist_extensions) then
            if nu ∉ visited then acc ++ [(nu, depth + 1)] else acc
          else acc
        else acc
      | none => acc)
    []

/-- The `title` recorded by `_process_url`: Python
`if title_tag and title_tag.string: result.title = title_tag.string.strip()`. -/
def recordedTitle (title : Option Str) : Option Str :=
  match title with
  | some t => if t ≠ [] then some (pyStrip t) else none
  | none => none

/-- Python `crawler.core.Crawler._process_url`, with the fetch and HTML
extraction supplied by the `Fetcher` oracle: bumps the processed counter and
the domain histogram, fetches, records status/content/title or classifies
the error, enqueues discovered in-scope links when `depth < max_depth`, and
appends exactly one `CrawlResult`. -/
def processUrl (env : Fetcher) (cfg : Config) (st : CrawlState) (url : Str)
    (depth : Nat) : CrawlState :=
  let stats1 :=
    { st.stats with total_urls_processed := st.stats.total_urls_processed + 1 }
  let stats2 :=
    match get_domain url with
    | some d =>
      if d ≠ [] then { stats1 with domain_counts := dictBump stats1.domain_counts d }
      else stats1
    | none => stats1
  match env url with
  | .requestError e =>
    let r : CrawlResult :=
      { url := url, depth := depth, error := some ("Request Error: ".data ++ e) }
    { st with
      stats :=
        { stats2 with total_errors_request := stats2.total_errors_request + 1 },
      results := st.results ++ [r] }
  | .response status csize ctype html =>
    let stats3 :=
      { stats2 with status_code_counts := dictBump stats2.status_code_counts status }
    if !isSuccessStatus status then
      let r : CrawlResult :=
        { url := url, depth := depth, status_code := some status,
          content_size := some csize,
          error := some ("HTTP Status ".data ++ (Nat.repr status).data) }
      { st with stats := stats3, results := st.results ++ [r] }
    else if contentTypeIsHtml ctype then
      match html with
      | .fail e =>
        let r : CrawlResult :=
          { url := url, depth := depth, status_code := some status,
            content_size := some csize,
            error := some ("Processing Error: ".data ++ e) }
        { st with
          stats :=
            { stats3 with
              total_errors_processing := stats3.total_errors_processing + 1 },
          results := st.results ++ [r] }
      | .parsed title links =>
        let newTasks :=
          if depth < cfg.max_depth then discoverTasks cfg st.visited url depth links
          else []
        let r : CrawlResult :=
          { url := url, depth := depth, status_code := some status,
            content_size := some csize, title := recordedTitle title }
        { st with
          queue := st.queue ++ newTasks,
          stats := stats3,
          results := st.results ++ [r] }
    else
      let r : CrawlResult :=
        { url := url, depth := depth, status_code := some status,
          content_size := some csize }
      { st with stats := stats3, results := st.results ++ [r] }

/-- The worker loop (`Crawler._worker`), sequentialised: dequeue a task,
skip it when the URL was already visited, otherwise mark it visited and run
`_process_url`.  `fuel` bounds the number of dequeues; every run-invariant
theorem below is proved for all fuel values. -/
def crawlLoop (env : Fetcher) (cfg : Config) : Nat → CrawlState → CrawlState
  | 0, st => st
  | fuel + 1, st =>
    match st.queue with
    | [] => st
    | (url, depth) :: rest =>
      let st' := { st with queue := rest }
      if url ∈ st'.visited then crawlLoop env cfg fuel st'
      else
        crawlLoop env cfg fuel
          (processUrl env cfg { st' with visited := url :: st'.visited } url depth)

/-- The initial crawl state: only the start task, at depth 0, is enqueued. -/
def initState (cfg : Config) : CrawlState :=
  { queue := [(cfg.start_url, 0)], visited := [], results := [], stats := {} }

/-- The final report of one crawl (`crawler.models.CrawlReport`, the fields
the claims are about). -/
structure CrawlReport where
  start_url : Str
  max_depth : Nat
  results : List CrawlResult
  stats : CrawlStats
deriving DecidableEq

/-- Python `crawler.core.Crawler.crawl`: if the start URL fails the
`is_valid_url` check the report is returned immediately with no results and
the untouched (all-zero) statistics; otherwise the start task is enqueued at
depth 0 and the worker loop drains the queue. -/
def crawl (env : Fetcher) (cfg : Config) (fuel : Nat) : CrawlReport :=
  if is_valid_url cfg.start_url cfg.allowed_domains (some cfg.blacklist_extensions) then
    let final := crawlLoop env cfg fuel (initState cfg)
    { start_url := cfg.start_url, max_depth := cfg.max_depth,
      results := final.results, stats := final.stats }
  else
    { start_url := cfg.start_url, max_depth := cfg.max_depth, results := [],
      stats := {} }

/-- Modelled from the spec: `DEFAULT_BLACKLIST_EXTENSIONS` lives in
`crawler/constants.py`, which is not among the source files; the spec's
extension-filtering scenarios (for example blacklisting `.jpg` assets) and
the tests treat it as a built-in, nonempty set of asset extensions that is
substituted when no blacklist argument is given.  Modelled as a
representative such set. -/
def DEFAULT_BLACKLIST_EXTENSIONS : List Str :=
  [".jpg", ".jpeg", ".png", ".gif", ".css", ".js", ".pdf", ".zip"].map
    String.data

/-- The blacklist normalisation of `Crawler.__init__`: an explicit list
(even an empty one) is taken as given, `None` is replaced by the built-in
default blacklist. -/
def mkBlacklistExtensions (arg : Option (List Str)) : List Str :=
  match arg with
  | some l => l
  | none => DEFAULT_BLACKLIST_EXTENSIONS

/-- The allowed-domain normalisation of `Crawler.__init__`: Python
`set(allowed_domains) if allowed_domains else None` maps a falsy argument
(`None` or an empty collection) to `None`. -/
def mkAllowedDomains (arg : Option (List Str)) : Option (List Str) :=
  match arg with
  | some l => if l.isEmpty then none else some l
  | none => none

/-! Spec-side definitions, written from the specification's words, to be
compared with the code-side definitions above. -/

/-- Spec reading of "the base itself minus its fragment": the characters of
the base before its first `'#'`. -/
def stripFragmentText (s : Str) : Str :=
  match splitOnce '#' s with
  | some (a, _) => a
  | none => s

/-- Parse of the resolved absolute form that `normalize_url` inspects. -/
def resolvedParse (baseUrl link : Str) : Except Unit ParseResult :=
  match urljoinE baseUrl (pyStrip link) with
  | .error e => .error e
  | .ok a => urlparseE a []

/-- Spec reading of `extensionOf` (claim C9): the lowercase last dot-segment
of the last path segment, `none` when the last segment has no dot or
consists only of leading dots before its last dot (a dotfile). -/
def specExtension (path : Str) : Option Str :=
  let seg :=
    match splitLast '/' path with
    | some (_, suf) => suf
    | none => path
  match splitLast '.' seg with
  | some (stem, extTail) =>
    if stem.all (fun c => c == '.') then none
    else some (lowerStr ('.' :: extTail))
  | none => none

/-- Depth discipline of one task: its depth never exceeds `max_depth`, and
depth 0 is reserved for the start URL. -/
def TaskOK (cfg : Config) (p : Str × Nat) : Prop :=
  p.2 ≤ cfg.max_depth ∧ (p.2 = 0 → p.1 = cfg.start_url)

/-- Depth discipline of one result record. -/
def ResultOK (cfg : Config) (r : CrawlResult) : Prop :=
  r.depth ≤ cfg.max_depth ∧ (r.depth = 0 → r.url = cfg.start_url)

/-- The depth invariant of a crawl state: every enqueued task and every
recorded result obeys the depth discipline. -/
def DepthInv (cfg : Config) (st : CrawlState) : Prop :=
  (∀ p ∈ st.queue, TaskOK cfg p) ∧ (∀ r ∈ st.results, ResultOK cfg r)

/-- The histogram invariant of the statistics: the status-code histogram
counts exactly the processed URLs whose fetch produced a response. -/
def HistInv (s : CrawlStats) : Prop :=
  dictSum s.status_code_counts + s.total_errors_request = s.total_urls_processed

/-- Well-formedness of a parse result, as guaranteed by `urlparseE` with an
empty default scheme: the scheme is empty or a lowercased valid scheme run;
the netloc contains no delimiter and no unsafe character and passes the
bracket check; path and params contain no `'#'` or `'?'` and no unsafe
character; the query contains no `'#'` and no unsafe character. -/
def WfParse (p : ParseResult) : Prop :=
  (p.scheme = [] ∨ isValidSchemeRun p.scheme = true) ∧
  (∀ c ∈ p.netloc, isNetlocDelim c = false ∧ isUnsafeUrlChar c = false) ∧
  bracketMismatch p.netloc = false ∧
  (∀ c ∈ p.path, c ≠ '#' ∧ c ≠ '?' ∧ isUnsafeUrlChar c = false) ∧
  (∀ c ∈ p.params, c ≠ '#' ∧ c ≠ '?' ∧ isUnsafeUrlChar c = false) ∧
  (∀ c ∈ p.query, c ≠ '#' ∧ isUnsafeUrlChar c = false)

/-! Concrete sample objects used by witnesses and counterexamples. -/

/-- A transport oracle whose every fetch fails with a connection error. -/
def sampleFailFetcher : Fetcher := fun _ => .requestError "ConnectError".data

/-- A transport oracle whose every fetch returns a 404 HTML response. -/
def sample404Fetcher : Fetcher :=
  fun _ => .response 404 3 "text/html".data (.parsed none [])

/-- A transport oracle whose every fetch returns a successful HTML page with
a title and one relative link. -/
def sampleHtmlFetcher : Fetcher :=
  fun _ => .response 200 100 "text/html".data (.parsed (some "T".data) ["/x".data])

/-- An empty crawl state. -/
def emptyState : CrawlState :=
  { queue := [], visited := [], results := [], stats := {} }

/-- A sample configuration with depth limit 0 and no filters. -/
def sampleCfg0 : Config :=
  { start_url := "http://a.com/".data, max_depth := 0, allowed_domains := none,
    blacklist_extensions := [] }

/-- A sample configuration with no filters and depth limit 2. -/
def sampleCfg2 : Config :=
  { start_url := "http://a.com/".data, max_depth := 2, allowed_domains := none,
    blacklist_extensions := [] }

/-- A sample configuration whose allowed-domain set excludes the start URL's
host. -/
def sampleCfgExcluded : Config :=
  { start_url := "http://example.com".data, max_depth := 2,
    allowed_domains := some ["other.com".data], blacklist_extensions := [] }

/-! Basic lemmas about the string-splitting helpers and the histogram
operations. -/

theorem splitOnce_some (c : Char) :
    ∀ s a b : Str, splitOnce c s = some (a, b) → s = a ++ c :: b ∧ c ∉ a := by
  intro s
  induction s with
  | nil => intro a b h; simp [splitOnce] at h
  | cons x xs ih =>
    intro a b h
    by_cases hx : x = c
    · simp [splitOnce, hx] at h
      obtain ⟨ha, hb⟩ := h
      subst ha; subst hb; subst hx
      simp
    · simp only [splitOnce, if_neg hx] at h
      cases hsp : splitOnce c xs with
      | none => rw [hsp] at h; simp at h
      | some p =>
        obtain ⟨a', b'⟩ := p
        rw [hsp] at h
        simp at h
        obtain ⟨ha, hb⟩ := h
        obtain ⟨hxs, hna⟩ := ih a' b' hsp
        subst ha; subst hb
        constructor
        · rw [hxs]; simp
        · simp [hna]
          exact fun hcx => hx hcx.symm

theorem splitOnce_none (c : Char) :
    ∀ s : Str, splitOnce c s = none → c ∉ s := by
  intro s
  induction s with
  | nil => intro _ h; simp at h
  | cons x xs ih =>
    intro h
    by_cases hx : x = c
    · simp [splitOnce, hx] at h
    · simp only [splitOnce, if_neg hx] at h
      cases hsp : splitOnce c xs with
      | none =>
        have := ih hsp
        simp [this]
        exact fun hcx => hx hcx.symm
      | some p => rw [hsp] at h; simp at h

theorem splitOnce_append (c : Char) (a b : Str) (ha : c ∉ a) :
    splitOnce c (a ++ c :: b) = some (a, b) := by
  induction a with
  | nil => simp [splitOnce]
  | cons x xs ih =>
    have hx : x ≠ c := by
      intro hxc; exact ha (by simp [hxc])
    have hxs : c ∉ xs := fun hm => ha (by simp [hm])
    simp only [List.cons_append, splitOnce, if_neg hx, List.append_eq, ih hxs]

theorem takeWhile_append_of_sat {α : Type} (p : α → Bool) (a b : List α)
    (ha : ∀ c ∈ a, p c = true) (hb : b = [] ∨ ∃ x xs, b = x :: xs ∧ p x = false) :
    (a ++ b).takeWhile p = a ∧ (a ++ b).dropWhile p = b := by
  induction a with
  | nil =>
    rcases hb with hb | ⟨x, xs, hb, hx⟩
    · subst hb; simp
    · subst hb; simp [List.takeWhile_cons, List.dropWhile_cons, hx]
  | cons y ys ih =>
    have hy : p y = true := ha y (by simp)
    have hys : ∀ c ∈ ys, p c = true := fun c hc => ha c (by simp [hc])
    obtain ⟨h1, h2⟩ := ih hys
    refine ⟨?_, ?_⟩
    · simp [List.takeWhile_cons, hy, h1]
    · simp [List.dropWhile_cons, hy, h2]

theorem dictSum_cons {α : Type} (k : α) (v : Nat) (m : List (α × Nat)) :
    dictSum ((k, v) :: m) = v + dictSum m := by
  simp [dictSum]

theorem dictSum_dictBump {α : Type} [DecidableEq α] (m : List (α × Nat)) (k : α) :
    dictSum (dictBump m k) = dictSum m + 1 := by
  induction m with
  | nil => simp [dictBump, dictSum]
  | cons kv rest ih =>
    obtain ⟨k', v⟩ := kv
    by_cases hk : k' = k
    · simp [dictBump, hk, dictSum_cons]
      omega
    · simp [dictBump, hk, dictSum_cons, ih]
      omega

/-! Shape lemmas for `processUrl`: each one holds in every branch of the
fetch outcome. -/

theorem processUrl_visited (env : Fetcher) (cfg : Config) (st : CrawlState)
    (url : Str) (depth : Nat) :
    (processUrl env cfg st url depth).visited = st.visited := by
  unfold processUrl
  cases env url <;> (repeat' split) <;> simp

theorem processUrl_processed (env : Fetcher) (cfg : Config) (st : CrawlState)
    (url : Str) (depth : Nat) :
    (processUrl env cfg st url depth).stats.total_urls_processed =
      st.stats.total_urls_processed + 1 := by
  unfold processUrl
  cases env url <;> (repeat' split) <;> simp

theorem processUrl_domain_counts (env : Fetcher) (cfg : Config) (st : CrawlState)
    (url : Str) (depth : Nat) :
    (processUrl env cfg st url depth).stats.domain_counts =
      (match get_domain url with
       | some d =>
         if d ≠ [] then dictBump st.stats.domain_counts d
         else st.stats.domain_counts
       | none => st.stats.domain_counts) := by
  unfold processUrl
  cases env url <;> (repeat' split) <;> simp_all

theorem processUrl_hist (env : Fetcher) (cfg : Config) (st : CrawlState)
    (url : Str) (depth : Nat) :
    dictSum (processUrl env cfg st url depth).stats.status_code_counts +
        (processUrl env cfg st url depth).stats.total_errors_request =
      dictSum st.stats.status_code_counts + st.stats.total_errors_request + 1 := by
  unfold processUrl
  cases env url <;> (repeat' split) <;> simp [dictSum_dictBump] <;> omega

theorem mem_discoverTasks (cfg : Config) (visited : List Str) (url : Str)
    (depth : Nat) (links : List Str) :
    ∀ p ∈ discoverTasks cfg visited url depth links, p.2 = depth + 1 := by
  suffices h : ∀ (links : List Str) (acc : List (Str × Nat)),
      (∀ p ∈ acc, p.2 = depth + 1) →
      ∀ p ∈ links.foldl
        (fun acc href =>
          match normalize_url url href with
          | some nu =>
            if nu ≠ [] ∧ nu ∉ visited then
              if is_valid_url nu cfg.allowed_domains (some cfg.blacklist_extensions) then
                if nu ∉ visited then acc ++ [(nu, depth + 1)] else acc
              else acc
            else acc
          | none => acc)
        acc, p.2 = depth + 1 by
    intro p hp
    exact h links [] (by simp) p hp
  intro links
  induction links with
  | nil => intro acc hacc p hp; exact hacc p hp
  | cons hd tl ih =>
    intro acc hacc p hp
    rw [List.foldl_cons] at hp
    refine ih _ ?_ p hp
    intro q hq
    rcases hnu : normalize_url url hd with _ | nu <;> simp only [hnu] at hq
    · exact hacc q hq
    · repeat' split at hq
      all_goals
        first
        | exact hacc q hq
        | (rcases List.mem_append.mp hq with h1 | h2
           · exact hacc q h1
           · simp at h2; simp [h2])

theorem processUrl_queue (env : Fetcher) (cfg : Config) (st : CrawlState)
    (url : Str) (depth : Nat) :
    ∃ ts, (processUrl env cfg st url depth).queue = st.queue ++ ts ∧
      (∀ p ∈ ts, p.2 = depth + 1) ∧ (ts ≠ [] → depth < cfg.max_depth) := by
  unfold processUrl
  cases env url with
  | requestError e => exact ⟨[], by simp⟩
  | response status csize ctype html =>
    by_cases hs : isSuccessStatus status
    · by_cases hc : contentTypeIsHtml ctype
      · cases html with
        | fail e => refine ⟨[], ?_⟩; simp [hs, hc]
        | parsed title links =>
          by_cases hd : depth < cfg.max_depth
          · refine ⟨discoverTasks cfg st.visited url depth links, ?_, ?_, ?_⟩
            · simp [hs, hc, hd]
            · exact fun p hp => mem_discoverTasks _ _ _ _ _ p hp
            · exact fun _ => hd
          · refine ⟨[], ?_⟩
            simp [hs, hc, hd]
      · refine ⟨[], ?_⟩; simp [hs, hc]
    · refine ⟨[], ?_⟩; simp [hs]

theorem processUrl_results (env : Fetcher) (cfg : Config) (st : CrawlState)
    (url : Str) (depth : Nat) :
    ∃ r, (processUrl env cfg st url depth).results = st.results ++ [r] ∧
      r.url = url ∧ r.depth = depth ∧
      ((r.error = none ∧
          ∃ s, r.status_code = some s ∧ isSuccessStatus s = true) ∨
        (r.status_code = none ∧
          ∃ e, r.error = some ("Request Error: ".data ++ e)) ∨
        (∃ s e, r.status_code = some s ∧ r.error = some e)) := by
  unfold processUrl
  cases env url with
  | requestError e =>
    exact ⟨{ url := url, depth := depth,
             error := some ("Request Error: ".data ++ e) },
      by simp, rfl, rfl, Or.inr (Or.inl ⟨rfl, e, rfl⟩)⟩
  | response status csize ctype html =>
    by_cases hs : isSuccessStatus status
    · by_cases hc : contentTypeIsHtml ctype
      · cases html with
        | fail e =>
          exact ⟨{ url := url, depth := depth, status_code := some status,
                   content_size := some csize,
                   error := some ("Processing Error: ".data ++ e) },
            by simp [hs, hc], rfl, rfl,
            Or.inr (Or.inr ⟨status, _, rfl, rfl⟩)⟩
        | parsed title links =>
          exact ⟨{ url := url, depth := depth, status_code := some status,
                   content_size := some csize, title := recordedTitle title },
            by simp [hs, hc], rfl, rfl, Or.inl ⟨rfl, status, rfl, hs⟩⟩
      · exact ⟨{ url := url, depth := depth, status_code := some status,
                 content_size := some csize },
          by simp [hs, hc], rfl, rfl, Or.inl ⟨rfl, status, rfl, hs⟩⟩
    · exact ⟨{ url := url, depth := depth, status_code := some status,
               content_size := some csize,
               error := some ("HTTP Status ".data ++ (Nat.repr status).data) },
        by simp [hs], rfl, rfl, Or.inr (Or.inr ⟨status, _, rfl, rfl⟩)⟩

/-! Invariants preserved by the worker loop. -/

theorem processUrl_histInv (env : Fetcher) (cfg : Config) (st : CrawlState)
    (url : Str) (depth : Nat) (h : HistInv st.stats) :
    HistInv (processUrl env cfg st url depth).stats := by
  have h1 := processUrl_hist env cfg st url depth
  have h2 := processUrl_processed env cfg st url depth
  unfold HistInv at *
  omega

theorem crawlLoop_histInv (env : Fetcher) (cfg : Config) :
    ∀ (fuel : Nat) (st : CrawlState), HistInv st.stats →
      HistInv (crawlLoop env cfg fuel st).stats := by
  intro fuel
  induction fuel with
  | zero => intro st h; simpa [crawlLoop] using h
  | succ n ih =>
    intro st h
    rw [crawlLoop]
    cases hq : st.queue with
    | nil => exact h
    | cons td rest =>
      obtain ⟨u, d⟩ := td
      by_cases hv : u ∈ st.visited
      · simp only [hv, if_true]
        exact ih _ h
      · simp only [hv, if_false]
        exact ih _ (processUrl_histInv _ _ _ _ _ h)

theorem processUrl_depthInv (env : Fetcher) (cfg : Config) (st : CrawlState)
    (url : Str) (depth : Nat) (ht : TaskOK cfg (url, depth))
    (h : DepthInv cfg st) : DepthInv cfg (processUrl env cfg st url depth) := by
  obtain ⟨hq, hr⟩ := h
  obtain ⟨ts, hts, htd, htne⟩ := processUrl_queue env cfg st url depth
  obtain ⟨r, hres, hru, hrd, _⟩ := processUrl_results env cfg st url depth
  constructor
  · intro p hp
    rw [hts] at hp
    rcases List.mem_append.mp hp with hp1 | hp2
    · exact hq p hp1
    · have hd2 : p.2 = depth + 1 := htd p hp2
      have hlt : depth < cfg.max_depth := htne (by rintro rfl; simp at hp2)
      exact ⟨by omega, by omega⟩
  · intro r' hr'
    rw [hres] at hr'
    rcases List.mem_append.mp hr' with hr1 | hr2
    · exact hr r' hr1
    · simp at hr2
      subst hr2
      exact ⟨hrd ▸ ht.1, fun h0 => hru ▸ ht.2 (hrd ▸ h0)⟩

theorem crawlLoop_depthInv (env : Fetcher) (cfg : Config) :
    ∀ (fuel : Nat) (st : CrawlState), DepthInv cfg st →
      DepthInv cfg (crawlLoop env cfg fuel st) := by
  intro fuel
  induction fuel with
  | zero => intro st h; simpa [crawlLoop] using h
  | succ n ih =>
    intro st h
    rw [crawlLoop]
    cases hq : st.queue with
    | nil => exact h
    | cons td rest =>
      obtain ⟨u, d⟩ := td
      have hrest : DepthInv cfg { st with queue := rest } :=
        ⟨fun p hp => h.1 p (by rw [hq]; exact List.mem_cons_of_mem _ hp), h.2⟩
      by_cases hv : u ∈ st.visited
      · simp only [hv, if_true]
        exact ih _ hrest
      · simp only [hv, if_false]
        refine ih _ (processUrl_depthInv _ _ _ _ _ ?_ ?_)
        · exact h.1 (u, d) (by rw [hq]; exact List.mem_cons_self _ _)
        · exact ⟨hrest.1, hrest.2⟩

/-- Characterisation of acceptance by `is_valid_url`: the URL parses and all
three filters pass. -/
theorem is_valid_url_eq_true_iff (url : Str)
    (a b : Option (List Str)) :
    is_valid_url url a b = true ↔
      ∃ p, urlparseE url [] = .ok p ∧ schemeOK p = true ∧
        domainRejected p a = false ∧ extRejected url b = false := by
  unfold is_valid_url
  cases hp : urlparseE url [] with
  | error e => simp
  | ok parsed =>
    constructor
    · intro h
      refine ⟨parsed, rfl, ?_, ?_, ?_⟩ <;>
        (by_cases h1 : schemeOK parsed = true <;>
          by_cases h2 : domainRejected parsed a = true <;>
          by_cases h3 : extRejected url b = true <;>
          simp [h1, h2, h3] at h ⊢)
    · rintro ⟨p, hpe, hs, hd, he⟩
      obtain rfl : parsed = p := by simpa using hpe
      simp [hs, hd, he]

/-! Claim theorems. -/

/-- C1, counterexample: on an HTTP-status error (here a 404), `_process_url`
has already stored the resolved status code on the result before
`raise_for_status` raises, so the recorded result carries an error *and* a
status code at once — refuting "never both an error and a status_code set on
the same result". -/
theorem C1_counterexample :
    ∃ r, (processUrl sample404Fetcher sampleCfg0 emptyState
        "http://a.com/".data 0).results = [r] ∧
      r.status_code = some 404 ∧ r.error = some "HTTP Status 404".data := by
  refine ⟨{ url := "http://a.com/".data, depth := 0, status_code := some 404,
            content_size := some 3, error := some "HTTP Status 404".data },
    ?_, rfl, rfl⟩
  decide

/-- C1 (amended): every result appended by `_process_url` satisfies exactly
one of three shapes: a success result with a 2xx status code and no error; a
transport-error result with an error and no status code; or a result that
carries both a resolved status code and an error (the HTTP-status-error
branch, and the processing-error branch after a response arrived). -/
theorem C1_amended_result_fields (env : Fetcher) (cfg : Config)
    (st : CrawlState) (url : Str) (depth : Nat) :
    ∃ r, (processUrl env cfg st url depth).results = st.results ++ [r] ∧
      r.url = url ∧ r.depth = depth ∧
      ((r.error = none ∧
          ∃ s, r.status_code = some s ∧ isSuccessStatus s = true) ∨
        (r.status_code = none ∧
          ∃ e, r.error = some ("Request Error: ".data ++ e)) ∨
        (∃ s e, r.status_code = some s ∧ r.error = some e)) :=
  processUrl_results env cfg st url depth

/-- C3, counterexample: the domain histogram is bumped at the top of
`_process_url`, before the fetch, so a URL whose fetch fails at transport
level does contribute to the domain histogram — refuting "a URL whose fetch
fails at transport level does not contribute". -/
theorem C3_counterexample :
    (processUrl sampleFailFetcher sampleCfg0 emptyState
        "http://a.com/x".data 0).stats.domain_counts = [("a.com".data, 1)] ∧
    ∃ r, (processUrl sampleFailFetcher sampleCfg0 emptyState
        "http://a.com/x".data 0).results = [r] ∧
      r.status_code = none ∧ r.error = some "Request Error: ConnectError".data := by
  constructor
  · decide
  · exact ⟨{ url := "http://a.com/x".data, depth := 0,
             error := some "Request Error: ConnectError".data },
      by decide, rfl, rfl⟩

/-- C3 (amended): the domain histogram is updated for every processed URL at
the start of `_process_url`, regardless of the fetch outcome; the status-code
histogram (and with it content length recording) is touched only when a
response arrives, and a transport failure instead increments the
request-error counter. -/
theorem C3_amended_domain_histogram (env : Fetcher) (cfg : Config)
    (st : CrawlState) (url : Str) (depth : Nat) :
    ((processUrl env cfg st url depth).stats.domain_counts =
      (match get_domain url with
       | some d =>
         if d ≠ [] then dictBump st.stats.domain_counts d
         else st.stats.domain_counts
       | none => st.stats.domain_counts)) ∧
    (∀ e, env url = .requestError e →
      (processUrl env cfg st url depth).stats.status_code_counts =
          st.stats.status_code_counts ∧
        (processUrl env cfg st url depth).stats.total_errors_request =
          st.stats.total_errors_request + 1) ∧
    (∀ s cs ct html, env url = .response s cs ct html →
      (processUrl env cfg st url depth).stats.status_code_counts =
        dictBump st.stats.status_code_counts s) := by
  refine ⟨processUrl_domain_counts env cfg st url depth, ?_, ?_⟩
  · intro e henv
    unfold processUrl
    rw [henv]
    constructor <;> (repeat' split) <;> simp_all
  · intro s cs ct html henv
    unfold processUrl
    rw [henv]
    (repeat' split) <;> simp_all

/-- C3, witness for the amended theorem at a concrete transport failure. -/
theorem C3_witness :
    (processUrl sampleFailFetcher sampleCfg0 emptyState "http://a.com/x".data
        0).stats.total_errors_request =
      emptyState.stats.total_errors_request + 1 :=
  ((C3_amended_domain_histogram sampleFailFetcher sampleCfg0 emptyState
    "http://a.com/x".data 0).2.1 "ConnectError".data rfl).2

/-- C8: at `depth = max_depth` the page is still fetched (the processed
counter is bumped and a result is recorded, with the status code and title
on a successful HTML response), but the queue is left untouched; and any
call of `_process_url` that enqueues anything has `depth < max_depth`. -/
theorem C8_max_depth_no_extraction (env : Fetcher) (cfg : Config)
    (st : CrawlState) (url : Str) (depth : Nat) (h : depth = cfg.max_depth) :
    (processUrl env cfg st url depth).queue = st.queue ∧
    (processUrl env cfg st url depth).stats.total_urls_processed =
      st.stats.total_urls_processed + 1 ∧
    (∃ r, (processUrl env cfg st url depth).results = st.results ++ [r] ∧
      r.url = url ∧ r.depth = depth ∧
      ∀ s cs ct t l, env url = .response s cs ct (.parsed t l) →
        isSuccessStatus s = true → contentTypeIsHtml ct = true →
        r.status_code = some s ∧ r.title = recordedTitle t) ∧
    (∀ d', (processUrl env cfg st url d').queue ≠ st.queue →
      d' < cfg.max_depth) := by
  have hqueue : ∀ d', (processUrl env cfg st url d').queue ≠ st.queue →
      d' < cfg.max_depth := by
    intro d' hne
    obtain ⟨ts, hts, _, htne⟩ := processUrl_queue env cfg st url d'
    refine htne ?_
    rintro rfl
    exact hne (by simpa using hts)
  refine ⟨?_, processUrl_processed env cfg st url depth, ?_, hqueue⟩
  · by_contra hne
    exact absurd (hqueue depth hne) (by omega)
  · unfold processUrl
    cases env url with
    | requestError e =>
      refine ⟨{ url := url, depth := depth,
                error := some ("Request Error: ".data ++ e) },
        by simp, rfl, rfl, ?_⟩
      intro s cs ct t l hcontra
      simp at hcontra
    | response status csize ctype html =>
      by_cases hs : isSuccessStatus status
      · by_cases hc : contentTypeIsHtml ctype
        · cases html with
          | fail e =>
            refine ⟨{ url := url, depth := depth, status_code := some status,
                      content_size := some csize,
                      error := some ("Processing Error: ".data ++ e) },
              by simp [hs, hc], rfl, rfl, ?_⟩
            intro s cs ct t l hcontra
            simp at hcontra
          | parsed title links =>
            refine ⟨{ url := url, depth := depth, status_code := some status,
                      content_size := some csize,
                      title := recordedTitle title },
              by simp [hs, hc], rfl, rfl, ?_⟩
            intro s cs ct t l heq _ _
            obtain ⟨rfl, -, -, rfl, -⟩ :
                status = s ∧ csize = cs ∧ ctype = ct ∧ title = t ∧ links = l := by
              simpa using heq
            exact ⟨rfl, rfl⟩
        · refine ⟨{ url := url, depth := depth, status_code := some status,
                    content_size := some csize },
            by simp [hs, hc], rfl, rfl, ?_⟩
          intro s cs ct t l heq hs' hc'
          obtain ⟨-, -, rfl, -⟩ :
              status = s ∧ csize = cs ∧ ctype = ct ∧ html = .parsed t l := by
            simpa using heq
          exact absurd hc' (by simp [hc])
      · refine ⟨{ url := url, depth := depth, status_code := some status,
                  content_size := some csize,
                  error := some ("HTTP Status ".data ++ (Nat.repr status).data) },
          by simp [hs], rfl, rfl, ?_⟩
        intro s cs ct t l heq hs' _
        obtain ⟨rfl, -, -, -⟩ :
            status = s ∧ csize = cs ∧ ctype = ct ∧ html = .parsed t l := by
          simpa using heq
        exact absurd hs' (by simp [hs])

/-- C8, witness: with depth limit 0, a successful HTML page carrying a link
is fetched at depth 0 yet nothing is enqueued. -/
theorem C8_witness :
    (0 = sampleCfg0.max_depth) ∧
    (processUrl sampleHtmlFetcher sampleCfg0 emptyState "http://a.com/".data
        0).queue = emptyState.queue :=
  ⟨rfl, (C8_max_depth_no_extraction sampleHtmlFetcher sampleCfg0 emptyState
    "http://a.com/".data 0 rfl).1⟩

/-- C4: in every run, every task in the queue after any number of worker
steps has depth at most `max_depth` with depth 0 only for the start URL, and
the same discipline holds for every recorded result of the final report. -/
theorem C4_depth_invariant (env : Fetcher) (cfg : Config) (fuel : Nat) :
    (∀ p ∈ (crawlLoop env cfg fuel (initState cfg)).queue,
      p.2 ≤ cfg.max_depth ∧ (p.2 = 0 → p.1 = cfg.start_url)) ∧
    (∀ r ∈ (crawl env cfg fuel).results,
      r.depth ≤ cfg.max_depth ∧ (r.depth = 0 → r.url = cfg.start_url)) := by
  have hinit : DepthInv cfg (initState cfg) := by
    constructor
    · intro p hp
      simp [initState] at hp
      subst hp
      exact ⟨Nat.zero_le _, fun _ => rfl⟩
    · intro r hr
      simp [initState] at hr
  have hfin := crawlLoop_depthInv env cfg fuel (initState cfg) hinit
  constructor
  · exact hfin.1
  · intro r hr
    unfold crawl at hr
    by_cases hv : is_valid_url cfg.start_url cfg.allowed_domains
        (some cfg.blacklist_extensions) = true
    · rw [if_pos hv] at hr
      exact hfin.2 r hr
    · rw [if_neg hv] at hr
      simp at hr

/-- C4, witness: the single result of a depth-2 crawl whose only fetch fails
at transport level is the start URL at depth 0. -/
theorem C4_witness :
    ({ url := "http://a.com/".data, depth := 0,
       error := some "Request Error: ConnectError".data } :
        CrawlResult).depth ≤ sampleCfg2.max_depth :=
  ((C4_depth_invariant sampleFailFetcher sampleCfg2 3).2 _ (by decide)).1

/-- C5: when the start URL fails the `is_valid_url` check, `crawl` returns a
report with no results and all-zero statistics, without raising. -/
theorem C5_invalid_start_empty_report (env : Fetcher) (cfg : Config)
    (fuel : Nat)
    (h : is_valid_url cfg.start_url cfg.allowed_domains
      (some cfg.blacklist_extensions) = false) :
    (crawl env cfg fuel).results = [] ∧
    (crawl env cfg fuel).stats.total_urls_processed = 0 ∧
    (crawl env cfg fuel).stats.total_errors_request = 0 ∧
    (crawl env cfg fuel).stats.total_errors_processing = 0 ∧
    (crawl env cfg fuel).stats.domain_counts = [] ∧
    (crawl env cfg fuel).stats.status_code_counts = [] := by
  simp [crawl, h]

/-- C5, witness: a start URL whose host is excluded by `allowedDomains`
short-circuits to an empty report. -/
theorem C5_witness :
    is_valid_url sampleCfgExcluded.start_url sampleCfgExcluded.allowed_domains
        (some sampleCfgExcluded.blacklist_extensions) = false ∧
    (crawl sampleFailFetcher sampleCfgExcluded 3).results = [] :=
  ⟨by decide, (C5_invalid_start_empty_report sampleFailFetcher
    sampleCfgExcluded 3 (by decide)).1⟩

/-- C6: at the end of every run, the status-code histogram sums to the
number of processed URLs minus the request-error count (the fetches that
never produced a status). -/
theorem C6_status_histogram_sum (env : Fetcher) (cfg : Config) (fuel : Nat) :
    dictSum (crawl env cfg fuel).stats.status_code_counts +
        (crawl env cfg fuel).stats.total_errors_request =
      (crawl env cfg fuel).stats.total_urls_processed ∧
    dictSum (crawl env cfg fuel).stats.status_code_counts =
      (crawl env cfg fuel).stats.total_urls_processed -
        (crawl env cfg fuel).stats.total_errors_request := by
  have hmain : HistInv (crawl env cfg fuel).stats := by
    unfold crawl
    by_cases hv : is_valid_url cfg.start_url cfg.allowed_domains
        (some cfg.blacklist_extensions) = true
    · rw [if_pos hv]
      exact crawlLoop_histInv env cfg fuel (initState cfg)
        (by simp [initState, HistInv, dictSum])
    · rw [if_neg hv]
      simp [HistInv, dictSum]
  unfold HistInv at hmain
  omega

/-- C2, counterexample: `allowedDomains` is a whitelist, so adding an entry
to it can widen acceptance — refuting the claim that adding entries to
either restriction set can only narrow acceptance. -/
theorem C2_counterexample :
    is_valid_url "http://b.com".data (some ["a.com".data]) none = false ∧
    is_valid_url "http://b.com".data (some ["a.com".data, "b.com".data]) none =
      true := by
  constructor <;> decide

/-- C2 (amended): `is_valid_url` is monotone in the blacklist — with the
domain restriction fixed, enlarging `blacklistedExtensions` can only narrow
acceptance — and imposing an `allowedDomains` restriction where there was
none can only narrow acceptance; but enlarging a nonempty `allowedDomains`
can widen acceptance (it is a whitelist). -/
theorem C2_amended_monotonicity :
    (∀ (url : Str) (a : Option (List Str)) (bl bl' : List Str),
      (∀ x ∈ bl, x ∈ bl') →
      is_valid_url url a (some bl') = true →
      is_valid_url url a (some bl) = true) ∧
    (∀ (url : Str) (d : List Str) (b : Option (List Str)),
      is_valid_url url (some d) b = true → is_valid_url url none b = true) := by
  constructor
  · intro url a bl bl' hsub h
    rw [is_valid_url_eq_true_iff] at h ⊢
    obtain ⟨p, hp, hs, hd, he⟩ := h
    refine ⟨p, hp, hs, hd, ?_⟩
    cases hr : extRejected url (some bl) with
    | false => rfl
    | true =>
      exfalso
      have hext : extBlacklisted url bl = true := by
        have := (Bool.and_eq_true _ _).mp (by simpa [extRejected] using hr)
        exact this.2
      unfold extBlacklisted at hext
      cases hge : get_extension url with
      | none => rw [hge] at hext; exact absurd hext (by simp)
      | some e =>
        rw [hge] at hext
        obtain ⟨hne, hmem⟩ := (Bool.and_eq_true _ _).mp hext
        have hmem' : e ∈ bl' := hsub e (by simpa using hmem)
        have hbl' : extRejected url (some bl') = true := by
          have h4 : extBlacklisted url bl' = true := by
            unfold extBlacklisted
            rw [hge]
            simp_all
          have h5 : truthyOpt (some bl') = true := by
            cases bl' with
            | nil => simp at hmem'
            | cons x xs => simp [truthyOpt]
          simp [extRejected, h4, h5]
        rw [he] at hbl'
        cases hbl'
  · intro url d b h
    rw [is_valid_url_eq_true_iff] at h ⊢
    obtain ⟨p, hp, hs, _, he⟩ := h
    exact ⟨p, hp, hs, by simp [domainRejected, truthyOpt], he⟩

/-- C2, witness: the blacklist-monotonicity half applied at a concrete URL
and a concrete pair of nested blacklists. -/
theorem C2_witness :
    is_valid_url "http://x.com/a.html".data none (some [".jpg".data]) = true :=
  C2_amended_monotonicity.1 "http://x.com/a.html".data none [".jpg".data]
    [".jpg".data, ".png".data] (by intro x hx; simp at hx; simp [hx])
    (by decide)

/-- C10: constructing the crawler with `blacklist_extensions=None`
substitutes the built-in (nonempty) default blacklist, so extension
filtering still applies, whereas an explicitly passed empty list yields an
empty effective blacklist and hence no extension constraint. -/
theorem C10_default_blacklist :
    mkBlacklistExtensions none = DEFAULT_BLACKLIST_EXTENSIONS ∧
    DEFAULT_BLACKLIST_EXTENSIONS ≠ [] ∧
    (∃ url : Str,
      is_valid_url url none (some (mkBlacklistExtensions none)) = false ∧
      is_valid_url url none (some (mkBlacklistExtensions (some []))) = true) ∧
    mkBlacklistExtensions (some []) = [] ∧
    (∀ (url : Str) (a : Option (List Str)),
      is_valid_url url a (some []) = is_valid_url url a none) := by
  refine ⟨rfl, by decide, ⟨"http://a.com/x.jpg".data, by decide, by decide⟩,
    rfl, ?_⟩
  intro url a
  unfold is_valid_url
  cases urlparseE url [] with
  | error e => rfl
  | ok parsed => simp [extRejected, truthyOpt]

/-- C9: `get_extension` returns exactly the lowercase last dot-segment of
the URL's parsed path (which excludes query and fragment), as described by
the spec-side `specExtension`; the closed conjuncts check the `.tar.gz`
tie-break, the query/fragment-ignoring behaviour and the dotfile rule on
concrete URLs. -/
theorem C9_extension_spec :
    (∀ url : Str, get_extension url =
      (match urlparseE url [] with
       | .ok p => specExtension p.path
       | .error _ => none)) ∧
    get_extension "http://example.com/archive.tar.gz".data = some ".gz".data ∧
    get_extension "http://example.com/page.html?query=1#frag".data =
      some ".html".data ∧
    get_extension "http://example.com/path/.config".data = none := by
  refine ⟨?_, by decide, by decide, by decide⟩
  intro url
  unfold get_extension
  cases hp : urlparseE url [] with
  | error e => rfl
  | ok p =>
    unfold specExtension splitext
    by_cases hpath : p.path = []
    · simp [hpath, splitLast, splitOnce]
    · simp only [ne_eq, hpath, not_false_eq_true, if_true]
      cases hsl : splitLast '/' p.path with
      | none =>
        simp only [hsl]
        cases hdot : splitLast '.' p.path with
        | none => simp [hdot]
        | some pr =>
          obtain ⟨stem, extTail⟩ := pr
          simp only [hdot]
          by_cases hany : stem.any (fun c => c != '.') = true
          · have hall : ¬ stem.all (fun c => c == '.') = true := by
              simp only [List.any_eq_true, bne_iff_ne, ne_eq] at hany
              obtain ⟨x, hx, hxne⟩ := hany
              simp only [List.all_eq_true, beq_iff_eq]
              intro hforall
              exact hxne (hforall x hx)
            simp [hany, hall]
          · have hall : stem.all (fun c => c == '.') = true := by
              simp only [List.all_eq_true, beq_iff_eq]
              intro x hx
              by_contra hxne
              refine absurd ?_ hany
              simp only [List.any_eq_true, bne_iff_ne, ne_eq]
              exact ⟨x, hx, hxne⟩
            simp [hany, hall]
      | some pr0 =>
        obtain ⟨pre, suf⟩ := pr0
        simp only [hsl]
        cases hdot : splitLast '.' suf with
        | none => simp [hdot]
        | some pr =>
          obtain ⟨stem, extTail⟩ := pr
          simp only [hdot]
          by_cases hany : stem.any (fun c => c != '.') = true
          · have hall : ¬ stem.all (fun c => c == '.') = true := by
              simp only [List.any_eq_true, bne_iff_ne, ne_eq] at hany
              obtain ⟨x, hx, hxne⟩ := hany
              simp only [List.all_eq_true, beq_iff_eq]
              intro hforall
              exact hxne (hforall x hx)
            simp [hany, hall]
          · have hall : stem.all (fun c => c == '.') = true := by
              simp only [List.all_eq_true, beq_iff_eq]
              intro x hx
              by_contra hxne
              refine absurd ?_ hany
              simp only [List.any_eq_true, bne_iff_ne, ne_eq]
              exact ⟨x, hx, hxne⟩
            simp [hany, hall]

/-! Character-level lemmas about lowercasing and the character classes of
the URL parser. -/

theorem char_ne_of_toNat_ne {c d : Char} (h : c.toNat ≠ d.toNat) : c ≠ d :=
  fun he => h (he ▸ rfl)

theorem toNat_ofNat_of_lt {m : Nat} (h : m < 55296) :
    (Char.ofNat m).toNat = m := by
  unfold Char.ofNat
  rw [dif_pos (Or.inl h)]
  rfl

theorem toLower_spec (c : Char) :
    c.toLower = c ∨
      ((65 ≤ c.toNat ∧ c.toNat ≤ 90) ∧ c.toLower.toNat = c.toNat + 32) := by
  by_cases h : c.toNat ≥ 65 ∧ c.toNat ≤ 90
  · right
    refine ⟨⟨h.1, h.2⟩, ?_⟩
    show (if c.toNat ≥ 65 ∧ c.toNat ≤ 90 then Char.ofNat (c.toNat + 32)
      else c).toNat = c.toNat + 32
    rw [if_pos h]
    exact toNat_ofNat_of_lt (by omega)
  · left
    show (if c.toNat ≥ 65 ∧ c.toNat ≤ 90 then Char.ofNat (c.toNat + 32)
      else c) = c
    rw [if_neg h]

theorem isAsciiAlpha_toLower {c : Char} (h : isAsciiAlpha c = true) :
    isAsciiAlpha c.toLower = true := by
  rcases toLower_spec c with heq | ⟨hr, heq⟩
  · rw [heq]; exact h
  · unfold isAsciiAlpha
    simp only [Bool.or_eq_true, Bool.and_eq_true, decide_eq_true_eq]
    omega

theorem isSchemeChar_toLower {c : Char} (h : isSchemeChar c = true) :
    isSchemeChar c.toLower = true := by
  rcases toLower_spec c with heq | ⟨hr, heq⟩
  · rw [heq]; exact h
  · have halpha : isAsciiAlpha c.toLower = true := by
      unfold isAsciiAlpha
      simp only [Bool.or_eq_true, Bool.and_eq_true, decide_eq_true_eq]
      omega
    unfold isSchemeChar
    simp [halpha]

theorem isValidSchemeRun_lowerStr {s : Str} (h : isValidSchemeRun s = true) :
    isValidSchemeRun (lowerStr s) = true := by
  cases s with
  | nil => simp [isValidSchemeRun] at h
  | cons c cs =>
    unfold isValidSchemeRun at h
    obtain ⟨halpha, hall⟩ := (Bool.and_eq_true _ _).mp h
    unfold lowerStr
    rw [List.map_cons]
    unfold isValidSchemeRun
    refine (Bool.and_eq_true _ _).mpr ⟨isAsciiAlpha_toLower halpha, ?_⟩
    rw [← List.map_cons]
    rw [List.all_eq_true] at hall ⊢
    intro x hx
    obtain ⟨y, hy, rfl⟩ := List.mem_map.mp hx
    exact isSchemeChar_toLower (hall y hy)

theorem schemeChar_toNat {c : Char} (h : isSchemeChar c = true) :
    43 ≤ c.toNat ∧ c.toNat ≤ 122 ∧ c.toNat ≠ 58 ∧ c.toNat ≠ 35 ∧
      c.toNat ≠ 63 ∧ c.toNat ≠ 47 := by
  unfold isSchemeChar isAsciiAlpha isAsciiDigit at h
  simp only [Bool.or_eq_true, Bool.and_eq_true, decide_eq_true_eq] at h
  rcases h with ((((h1 | h1) | h1) | rfl) | rfl) | rfl
  · omega
  · omega
  · omega
  · decide
  · decide
  · decide

theorem schemeChar_facts {c : Char} (h : isSchemeChar c = true) :
    32 < c.toNat ∧ c ≠ ':' ∧ c ≠ '#' ∧ isUnsafeUrlChar c = false := by
  obtain ⟨h1, h2, h3, h4, h5, h6⟩ := schemeChar_toNat h
  refine ⟨by omega, ?_, ?_, ?_⟩
  · exact char_ne_of_toNat_ne
      (by simp only [show (':').toNat = 58 from rfl]; omega)
  · exact char_ne_of_toNat_ne
      (by simp only [show ('#').toNat = 35 from rfl]; omega)
  · unfold isUnsafeUrlChar
    simp only [Bool.or_eq_false_iff, decide_eq_false_iff_not]
    refine ⟨⟨?_, ?_⟩, ?_⟩
    · exact char_ne_of_toNat_ne
        (by simp only [show ('\t').toNat = 9 from rfl]; omega)
    · exact char_ne_of_toNat_ne
        (by simp only [show ('\r').toNat = 13 from rfl]; omega)
    · exact char_ne_of_toNat_ne
        (by simp only [show ('\n').toNat = 10 from rfl]; omega)

theorem not_isNetlocDelim_iff {c : Char} :
    isNetlocDelim c = false ↔ c ≠ '/' ∧ c ≠ '?' ∧ c ≠ '#' := by
  unfold isNetlocDelim
  simp [not_or, and_assoc]

theorem mem_cleanUrl_unsafe {s : Str} {c : Char} (h : c ∈ cleanUrl s) :
    isUnsafeUrlChar c = false := by
  unfold cleanUrl at h
  have := (List.mem_filter.mp h).2
  simpa using this

theorem splitOnce_none_of_not_mem (c : Char) :
    ∀ s : Str, c ∉ s → splitOnce c s = none := by
  intro s
  induction s with
  | nil => intro _; rfl
  | cons x xs ih =>
    intro h
    have hx : x ≠ c := fun hxc => h (by simp [hxc])
    have hxs : c ∉ xs := fun hm => h (by simp [hm])
    simp only [splitOnce, if_neg hx, ih hxs]

theorem splitLast_eq (c : Char) (s a b : Str) (h : splitLast c s = some (a, b)) :
    s = a ++ c :: b ∧ c ∉ b := by
  unfold splitLast at h
  cases hsp : splitOnce c s.reverse with
  | none => rw [hsp] at h; simp at h
  | some pr =>
    obtain ⟨x, y⟩ := pr
    rw [hsp] at h
    simp at h
    obtain ⟨ha, hb⟩ := h
    obtain ⟨hrev, hnx⟩ := splitOnce_some c s.reverse x y hsp
    subst ha; subst hb
    constructor
    · have := congrArg List.reverse hrev
      simpa [List.reverse_append] using this
    · simpa using hnx

/-! Membership lemmas for the splitting steps, and the well-formedness of
parse results. -/

theorem mem_of_mem_takeWhile {α : Type} (p : α → Bool) :
    ∀ (l : List α) (a : α), a ∈ l.takeWhile p → a ∈ l := by
  intro l
  induction l with
  | nil => intro a ha; simp at ha
  | cons x xs ih =>
    intro a ha
    rw [List.takeWhile_cons] at ha
    by_cases hx : p x = true
    · rw [if_pos hx] at ha
      rcases List.mem_cons.mp ha with rfl | ha
      · exact List.mem_cons_self _ _
      · exact List.mem_cons_of_mem _ (ih a ha)
    · rw [if_neg hx] at ha
      simp at ha

theorem pred_of_mem_takeWhile {α : Type} (p : α → Bool) :
    ∀ (l : List α) (a : α), a ∈ l.takeWhile p → p a = true := by
  intro l
  induction l with
  | nil => intro a ha; simp at ha
  | cons x xs ih =>
    intro a ha
    rw [List.takeWhile_cons] at ha
    by_cases hx : p x = true
    · rw [if_pos hx] at ha
      rcases List.mem_cons.mp ha with rfl | ha
      · exact hx
      · exact ih a ha
    · rw [if_neg hx] at ha
      simp at ha

theorem mem_of_mem_dropWhile {α : Type} (p : α → Bool) :
    ∀ (l : List α) (a : α), a ∈ l.dropWhile p → a ∈ l := by
  intro l
  induction l with
  | nil => intro a ha; simp at ha
  | cons x xs ih =>
    intro a ha
    rw [List.dropWhile_cons] at ha
    by_cases hx : p x = true
    · rw [if_pos hx] at ha
      exact List.mem_cons_of_mem _ (ih a ha)
    · rw [if_neg hx] at ha
      exact ha

theorem mem_of_mem_drop {α : Type} :
    ∀ (l : List α) (n : Nat) (a : α), a ∈ l.drop n → a ∈ l := by
  intro l
  induction l with
  | nil => intro n a ha; simp at ha
  | cons x xs ih =>
    intro n a ha
    cases n with
    | zero => exact ha
    | succ m =>
      rw [List.drop_succ_cons] at ha
      exact List.mem_cons_of_mem _ (ih m a ha)

theorem splitScheme_fst (dflt u : Str) :
    (splitScheme dflt u).1 = dflt ∨
      isValidSchemeRun (splitScheme dflt u).1 = true := by
  unfold splitScheme
  cases hsp : splitOnce ':' u with
  | none => exact Or.inl rfl
  | some pr =>
    obtain ⟨before, after⟩ := pr
    dsimp only
    by_cases hv : isValidSchemeRun before = true
    · right
      rw [if_pos hv]
      exact isValidSchemeRun_lowerStr hv
    · left
      rw [if_neg hv]

theorem splitScheme_snd_subset (dflt u : Str) :
    ∀ c ∈ (splitScheme dflt u).2, c ∈ u := by
  unfold splitScheme
  cases hsp : splitOnce ':' u with
  | none => intro c hc; exact hc
  | some pr =>
    obtain ⟨before, after⟩ := pr
    obtain ⟨hu, _⟩ := splitOnce_some ':' u before after hsp
    by_cases hv : isValidSchemeRun before = true
    · simp only [hv, if_true]
      intro c hc
      rw [hu]
      simp [hc]
    · simp only [hv, if_false]
      intro c hc
      exact hc

theorem splitNetloc_fst (u : Str) :
    ∀ c ∈ (splitNetloc u).1, isNetlocDelim c = false ∧ c ∈ u := by
  unfold splitNetloc
  by_cases ht : u.take 2 = ['/', '/']
  · rw [if_pos ht]
    intro c hc
    refine ⟨?_, ?_⟩
    · have := pred_of_mem_takeWhile _ _ _ hc
      simpa using this
    · exact mem_of_mem_drop u 2 c (mem_of_mem_takeWhile _ _ _ hc)
  · rw [if_neg ht]
    intro c hc
    simp at hc

theorem splitNetloc_snd_subset (u : Str) :
    ∀ c ∈ (splitNetloc u).2, c ∈ u := by
  unfold splitNetloc
  by_cases ht : u.take 2 = ['/', '/']
  · rw [if_pos ht]
    intro c hc
    exact mem_of_mem_drop u 2 c (mem_of_mem_dropWhile _ _ _ hc)
  · rw [if_neg ht]
    intro c hc
    exact hc

theorem splitFragment_fst (u : Str) :
    '#' ∉ (splitFragment u).1 ∧ ∀ c ∈ (splitFragment u).1, c ∈ u := by
  unfold splitFragment
  cases hsp : splitOnce '#' u with
  | none => exact ⟨splitOnce_none '#' u hsp, fun c hc => hc⟩
  | some pr =>
    obtain ⟨a, b⟩ := pr
    obtain ⟨hu, hna⟩ := splitOnce_some '#' u a b hsp
    exact ⟨hna, fun c hc => by rw [hu]; simp [hc]⟩

theorem splitQuery_fst (u : Str) :
    '?' ∉ (splitQuery u).1 ∧ ∀ c ∈ (splitQuery u).1, c ∈ u := by
  unfold splitQuery
  cases hsp : splitOnce '?' u with
  | none => exact ⟨splitOnce_none '?' u hsp, fun c hc => hc⟩
  | some pr =>
    obtain ⟨a, b⟩ := pr
    obtain ⟨hu, hna⟩ := splitOnce_some '?' u a b hsp
    exact ⟨hna, fun c hc => by rw [hu]; simp [hc]⟩

theorem splitQuery_snd_subset (u : Str) :
    ∀ c ∈ (splitQuery u).2, c ∈ u := by
  unfold splitQuery
  cases hsp : splitOnce '?' u with
  | none => intro c hc; simp at hc
  | some pr =>
    obtain ⟨a, b⟩ := pr
    obtain ⟨hu, _⟩ := splitOnce_some '?' u a b hsp
    intro c hc
    rw [hu]
    simp [hc]

theorem splitparams_mem (p : Str) :
    (∀ x ∈ (splitparams p).1, x ∈ p) ∧ (∀ x ∈ (splitparams p).2, x ∈ p) := by
  unfold splitparams
  cases hsl : splitLast '/' p with
  | some pr0 =>
    obtain ⟨pre, suf⟩ := pr0
    obtain ⟨hp, _⟩ := splitLast_eq '/' p pre suf hsl
    cases hso : splitOnce ';' suf with
    | some pr =>
      obtain ⟨a, b⟩ := pr
      obtain ⟨hsuf, _⟩ := splitOnce_some ';' suf a b hso
      simp only [hso]
      constructor
      · intro x hx
        rw [hp, hsuf]
        rcases List.mem_append.mp hx with hx | hx
        · simp [hx]
        · rcases List.mem_cons.mp hx with rfl | hx
          · simp
          · simp [hx]
      · intro x hx
        rw [hp, hsuf]
        simp [hx]
    | none =>
      simp only [hso]
      exact ⟨fun x hx => hx, fun x hx => by simp at hx⟩
  | none =>
    cases hso : splitOnce ';' p with
    | some pr =>
      obtain ⟨a, b⟩ := pr
      obtain ⟨hp, _⟩ := splitOnce_some ';' p a b hso
      simp only [hso]
      constructor
      · intro x hx
        rw [hp]
        simp [hx]
      · intro x hx
        rw [hp]
        simp [hx]
    | none =>
      simp only [hso]
      exact ⟨fun x hx => hx, fun x hx => by simp at hx⟩

theorem urlsplitE_wf (url : Str) (s : SplitResult) (h : urlsplitE url [] = .ok s) :
    (s.scheme = [] ∨ isValidSchemeRun s.scheme = true) ∧
    (∀ c ∈ s.netloc, isNetlocDelim c = false ∧ isUnsafeUrlChar c = false) ∧
    bracketMismatch s.netloc = false ∧
    (∀ c ∈ s.path, c ≠ '#' ∧ c ≠ '?' ∧ isUnsafeUrlChar c = false) ∧
    (∀ c ∈ s.query, c ≠ '#' ∧ isUnsafeUrlChar c = false) := by
  simp only [urlsplitE] at h
  by_cases hbr : bracketMismatch
      (splitNetloc (splitScheme (cleanDefaultScheme []) (cleanUrl url)).2).1 = true
  · rw [if_pos hbr] at h
    cases h
  · rw [if_neg hbr] at h
    have hs : s = ⟨(splitScheme (cleanDefaultScheme []) (cleanUrl url)).1,
        (splitNetloc (splitScheme (cleanDefaultScheme []) (cleanUrl url)).2).1,
        (splitQuery (splitFragment
          (splitNetloc (splitScheme (cleanDefaultScheme []) (cleanUrl url)).2).2).1).1,
        (splitQuery (splitFragment
          (splitNetloc (splitScheme (cleanDefaultScheme []) (cleanUrl url)).2).2).1).2,
        (splitFragment
          (splitNetloc (splitScheme (cleanDefaultScheme []) (cleanUrl url)).2).2).2⟩ := by
      cases h
      rfl
    subst hs
    dsimp only
    have hclean : ∀ c ∈ cleanUrl url, isUnsafeUrlChar c = false :=
      fun c hc => mem_cleanUrl_unsafe hc
    have hdflt : cleanDefaultScheme [] = [] := rfl
    have hu2 : ∀ c ∈ (splitScheme (cleanDefaultScheme []) (cleanUrl url)).2,
        isUnsafeUrlChar c = false :=
      fun c hc => hclean c (splitScheme_snd_subset _ _ c hc)
    have hu3 : ∀ c ∈ (splitNetloc
        (splitScheme (cleanDefaultScheme []) (cleanUrl url)).2).2,
        isUnsafeUrlChar c = false :=
      fun c hc => hu2 c (splitNetloc_snd_subset _ c hc)
    obtain ⟨hfr1, hfr2⟩ := splitFragment_fst
      (splitNetloc (splitScheme (cleanDefaultScheme []) (cleanUrl url)).2).2
    have hu4 : ∀ c ∈ (splitFragment (splitNetloc
        (splitScheme (cleanDefaultScheme []) (cleanUrl url)).2).2).1,
        isUnsafeUrlChar c = false :=
      fun c hc => hu3 c (hfr2 c hc)
    obtain ⟨hq1, hq2⟩ := splitQuery_fst
      (splitFragment (splitNetloc
        (splitScheme (cleanDefaultScheme []) (cleanUrl url)).2).2).1
    refine ⟨?_, ?_, ?_, ?_, ?_⟩
    · rcases splitScheme_fst (cleanDefaultScheme []) (cleanUrl url) with hd | hv
      · left; rw [hd, hdflt]
      · right; exact hv
    · intro c hc
      obtain ⟨hdelim, hmem⟩ := splitNetloc_fst _ c hc
      exact ⟨hdelim, hu2 c hmem⟩
    · exact Bool.eq_false_iff.mpr (fun he => hbr (by rw [he]))
    · intro c hc
      refine ⟨?_, ?_, hu4 c (hq2 c hc)⟩
      · intro hceq
        exact hfr1 (hceq ▸ hq2 c hc)
      · intro hceq
        exact hq1 (hceq ▸ hc)
    · intro c hc
      have hmem : c ∈ (splitFragment (splitNetloc
          (splitScheme (cleanDefaultScheme []) (cleanUrl url)).2).2).1 :=
        splitQuery_snd_subset _ c hc
      exact ⟨fun hceq => hfr1 (hceq ▸ hmem), hu4 c hmem⟩

theorem urlparseE_wf (url : Str) (p : ParseResult)
    (h : urlparseE url [] = .ok p) : WfParse p := by
  unfold urlparseE at h
  cases hs : urlsplitE url [] with
  | error e => rw [hs] at h; cases h
  | ok s =>
    rw [hs] at h
    dsimp only at h
    obtain ⟨w1, w2, w3, w4, w5⟩ := urlsplitE_wf url s hs
    by_cases hc : s.scheme ∈ usesParams ∧ ';' ∈ s.path
    · rw [if_pos hc] at h
      obtain ⟨hm1, hm2⟩ := splitparams_mem s.path
      cases h
      exact ⟨w1, w2, w3, fun c hcc => w4 c (hm1 c hcc),
        fun c hcc => w4 c (hm2 c hcc), w5⟩
    · rw [if_neg hc] at h
      cases h
      exact ⟨w1, w2, w3, w4, fun c hcc => by simp at hcc, w5⟩

/-! Reconstruction: parsing the serialisation of a well-formed parse result
recovers a nonempty scheme, the same netloc, and an empty fragment. -/

theorem schemeRun_chars {s : Str} (h : isValidSchemeRun s = true) :
    ∀ c ∈ s, isSchemeChar c = true := by
  cases s with
  | nil => intro c hc; simp at hc
  | cons c0 cs =>
    unfold isValidSchemeRun at h
    obtain ⟨_, hall⟩ := (Bool.and_eq_true _ _).mp h
    rw [List.all_eq_true] at hall
    exact hall

theorem schemeRun_ne_nil {s : Str} (h : isValidSchemeRun s = true) : s ≠ [] := by
  cases s with
  | nil => simp [isValidSchemeRun] at h
  | cons c0 cs => simp

theorem schemeRun_head_large {s : Str} (h : isValidSchemeRun s = true) :
    ∀ c0 cs, s = c0 :: cs → 32 < c0.toNat := by
  intro c0 cs hs
  subst hs
  unfold isValidSchemeRun at h
  obtain ⟨halpha, _⟩ := (Bool.and_eq_true _ _).mp h
  unfold isAsciiAlpha at halpha
  simp only [Bool.or_eq_true, Bool.and_eq_true, decide_eq_true_eq] at halpha
  omega

theorem urlsplitE_reconstruct (scheme netloc tail : Str)
    (hrun : isValidSchemeRun scheme = true)
    (hnet : ∀ c ∈ netloc, isNetlocDelim c = false ∧ isUnsafeUrlChar c = false)
    (hbr : bracketMismatch netloc = false)
    (htailh : '#' ∉ tail)
    (htailu : ∀ c ∈ tail, isUnsafeUrlChar c = false)
    (htailhd : tail = [] ∨ ∃ d t', tail = d :: t' ∧ isNetlocDelim d = true) :
    urlsplitE (scheme ++ ':' :: '/' :: '/' :: (netloc ++ tail)) [] =
      .ok ⟨lowerStr scheme, netloc, (splitQuery tail).1, (splitQuery tail).2,
        []⟩ := by
  have hchars := schemeRun_chars hrun
  have hcolon : ':' ∉ scheme := by
    intro hmem
    exact (schemeChar_facts (hchars _ hmem)).2.1 rfl
  have hclean : cleanUrl (scheme ++ ':' :: '/' :: '/' :: (netloc ++ tail)) =
      scheme ++ ':' :: '/' :: '/' :: (netloc ++ tail) := by
    unfold cleanUrl
    obtain ⟨c0, cs, hsch⟩ : ∃ c0 cs, scheme = c0 :: cs := by
      cases hx : scheme with
      | nil => exact absurd hx (schemeRun_ne_nil hrun)
      | cons a b => exact ⟨a, b, rfl⟩
    have hdw : ((scheme ++ ':' :: '/' :: '/' :: (netloc ++ tail)).dropWhile
        isC0OrSpace) = scheme ++ ':' :: '/' :: '/' :: (netloc ++ tail) := by
      rw [hsch]
      rw [List.cons_append, List.dropWhile_cons]
      have : isC0OrSpace c0 = false := by
        have := schemeRun_head_large hrun c0 cs hsch
        unfold isC0OrSpace
        simp only [decide_eq_false_iff_not]
        omega
      rw [this]
      simp
    rw [hdw]
    rw [List.filter_eq_self]
    intro c hc
    simp only [List.mem_append, List.mem_cons] at hc
    rcases hc with hc | hc | hc | hc | hc
    · simp [(schemeChar_facts (hchars _ hc)).2.2.2]
    · subst hc; decide
    · subst hc; decide
    · subst hc; decide
    · rcases hc with hc | hc
      · simp [(hnet c hc).2]
      · simp [htailu c hc]
  have hss : splitScheme (cleanDefaultScheme [])
      (scheme ++ ':' :: '/' :: '/' :: (netloc ++ tail)) =
      (lowerStr scheme, '/' :: '/' :: (netloc ++ tail)) := by
    unfold splitScheme
    rw [splitOnce_append ':' scheme _ hcolon]
    dsimp only
    rw [if_pos hrun]
  have hsn : splitNetloc ('/' :: '/' :: (netloc ++ tail)) = (netloc, tail) := by
    unfold splitNetloc
    rw [if_pos (show List.take 2 ('/' :: '/' :: (netloc ++ tail)) = ['/', '/']
      from rfl)]
    have := takeWhile_append_of_sat (fun c => !isNetlocDelim c) netloc tail
      (fun c hc => by simp [(hnet c hc).1])
      (by
        rcases htailhd with h | ⟨d, t', hdt, hdd⟩
        · exact Or.inl h
        · exact Or.inr ⟨d, t', hdt, by simp [hdd]⟩)
    rw [show ('/' :: '/' :: (netloc ++ tail)).drop 2 = netloc ++ tail from rfl]
    rw [this.1, this.2]
  have hsf : splitFragment tail = (tail, []) := by
    unfold splitFragment
    rw [splitOnce_none_of_not_mem '#' tail htailh]
  simp only [urlsplitE, hclean, hss, hsn, hsf, hbr]
  simp

theorem urlunsplit_reparse (scheme netloc url0 query : Str)
    (hrun : isValidSchemeRun scheme = true)
    (hnet : ∀ c ∈ netloc, isNetlocDelim c = false ∧ isUnsafeUrlChar c = false)
    (hbr : bracketMismatch netloc = false)
    (hn : netloc ≠ [])
    (h0 : ∀ c ∈ url0, c ≠ '#' ∧ isUnsafeUrlChar c = false)
    (hq : ∀ c ∈ query, c ≠ '#' ∧ isUnsafeUrlChar c = false) :
    ∃ pa qu, urlsplitE (urlunsplit scheme netloc url0 query []) [] =
      .ok ⟨lowerStr scheme, netloc, pa, qu, []⟩ := by
  have hsne : scheme ≠ [] := schemeRun_ne_nil hrun
  unfold urlunsplit
  dsimp only
  rw [if_pos (Or.inl hn)]
  rw [if_pos hsne]
  rw [if_neg (show ¬(([] : Str) ≠ []) by simp)]
  have hmk : ∀ (url1 : Str),
      (∀ c ∈ url1, c ≠ '#' ∧ isUnsafeUrlChar c = false) →
      (url1 = [] ∨ ∃ t', url1 = '/' :: t') →
      ∃ pa qu, urlsplitE
        (if query ≠ [] then
          (scheme ++ ':' :: '/' :: '/' :: (netloc ++ url1)) ++ '?' :: query
        else scheme ++ ':' :: '/' :: '/' :: (netloc ++ url1)) [] =
        .ok ⟨lowerStr scheme, netloc, pa, qu, []⟩ := by
    intro url1 h1 hhd
    by_cases hqe : query = []
    · rw [if_neg (by simp [hqe])]
      refine ⟨(splitQuery url1).1, (splitQuery url1).2, ?_⟩
      apply urlsplitE_reconstruct scheme netloc url1 hrun hnet hbr
      · intro hmem
        exact (h1 '#' hmem).1 rfl
      · exact fun c hc => (h1 c hc).2
      · rcases hhd with h | ⟨t', h⟩
        · exact Or.inl h
        · exact Or.inr ⟨'/', t', h, by decide⟩
    · rw [if_pos hqe]
      have hshape : (scheme ++ ':' :: '/' :: '/' :: (netloc ++ url1)) ++
          '?' :: query =
          scheme ++ ':' :: '/' :: '/' :: (netloc ++ (url1 ++ '?' :: query)) := by
        simp [List.append_assoc]
      rw [hshape]
      refine ⟨(splitQuery (url1 ++ '?' :: query)).1,
        (splitQuery (url1 ++ '?' :: query)).2, ?_⟩
      apply urlsplitE_reconstruct scheme netloc (url1 ++ '?' :: query) hrun
        hnet hbr
      · intro hmem
        rcases List.mem_append.mp hmem with hm | hm
        · exact (h1 '#' hm).1 rfl
        · rcases List.mem_cons.mp hm with hm | hm
          · cases hm
          · exact (hq '#' hm).1 rfl
      · intro c hc
        rcases List.mem_append.mp hc with hm | hm
        · exact (h1 c hm).2
        · rcases List.mem_cons.mp hm with hm | hm
          · subst hm; decide
          · exact (hq c hm).2
      · rcases hhd with h | ⟨t', h⟩
        · subst h
          exact Or.inr ⟨'?', query, rfl, by decide⟩
        · subst h
          exact Or.inr ⟨'/', t' ++ '?' :: query, rfl, by decide⟩
  by_cases hb : url0 ≠ [] ∧ url0.take 1 ≠ ['/']
  · rw [if_pos hb]
    refine hmk ('/' :: url0) ?_ (Or.inr ⟨url0, rfl⟩)
    intro c hc
    rcases List.mem_cons.mp hc with rfl | hc
    · exact ⟨by decide, by decide⟩
    · exact h0 c hc
  · rw [if_neg hb]
    rcases Classical.not_and_iff_or_not_not.mp hb with hb0 | hb1
    · have hb0' : url0 = [] := by
        by_contra hne
        exact hb0 hne
      exact hmk url0 h0 (Or.inl hb0')
    · have hb1' : url0.take 1 = ['/'] := by
        by_contra hne
        exact hb1 hne
      cases hx : url0 with
      | nil => rw [hx] at hb1'; simp at hb1'
      | cons d t =>
        rw [hx] at hb1'
        simp at hb1'
        subst hb1'
        exact hmk ('/' :: t) (by rw [← hx]; exact h0) (Or.inr ⟨t, rfl⟩)

theorem geturl_reparse (p : ParseResult) (hw : WfParse p) (hs : p.scheme ≠ [])
    (hn : p.netloc ≠ []) :
    ∃ q, urlparseE (geturl { p with fragment := [] }) [] = .ok q ∧
      q.scheme ≠ [] ∧ q.netloc ≠ [] ∧ q.fragment = [] := by
  obtain ⟨hw1, hw2, hw3, hw4, hw5, hw6⟩ := hw
  have hrun : isValidSchemeRun p.scheme = true := by
    rcases hw1 with h | h
    · exact absurd h hs
    · exact h
  have hgeq : geturl { p with fragment := [] } =
      urlunsplit p.scheme p.netloc
        (if p.params ≠ [] then p.path ++ ';' :: p.params else p.path)
        p.query [] := rfl
  have h0 : ∀ c ∈ (if p.params ≠ [] then p.path ++ ';' :: p.params else p.path),
      c ≠ '#' ∧ isUnsafeUrlChar c = false := by
    by_cases hpp : p.params ≠ []
    · rw [if_pos hpp]
      intro c hc
      rcases List.mem_append.mp hc with hc | hc
      · exact ⟨(hw4 c hc).1, (hw4 c hc).2.2⟩
      · rcases List.mem_cons.mp hc with rfl | hc
        · exact ⟨by decide, by decide⟩
        · exact ⟨(hw5 c hc).1, (hw5 c hc).2.2⟩
    · rw [if_neg hpp]
      intro c hc
      exact ⟨(hw4 c hc).1, (hw4 c hc).2.2⟩
  have hq6 : ∀ c ∈ p.query, c ≠ '#' ∧ isUnsafeUrlChar c = false := hw6
  obtain ⟨pa, qu, hsplit⟩ := urlunsplit_reparse p.scheme p.netloc
    (if p.params ≠ [] then p.path ++ ';' :: p.params else p.path) p.query
    hrun hw2 hw3 hn h0 hq6
  rw [hgeq]
  unfold urlparseE
  rw [hsplit]
  dsimp only
  have hls : lowerStr p.scheme ≠ [] := by
    simpa [lowerStr] using hs
  by_cases hc : lowerStr p.scheme ∈ usesParams ∧ ';' ∈ pa
  · rw [if_pos hc]
    exact ⟨_, rfl, hls, hn, rfl⟩
  · rw [if_neg hc]
    exact ⟨_, rfl, hls, hn, rfl⟩

/-- C7, counterexample: the empty raw link does not normalize to "the base
itself minus its fragment": the parser lowercases the scheme, so the output
differs textually from the defragmented base. -/
theorem C7_counterexample :
    normalize_url "HTTP://Example.com/#frag".data [] =
      some "http://Example.com/".data ∧
    stripFragmentText "HTTP://Example.com/#frag".data =
      "HTTP://Example.com/".data ∧
    normalize_url "HTTP://Example.com/#frag".data [] ≠
      some (stripFragmentText "HTTP://Example.com/#frag".data) := by
  refine ⟨by decide, by decide, by decide⟩

/-- C7 (amended): `normalize_url` returns `none` exactly when resolving and
parsing fails or the resolved form lacks a scheme or a host; any returned
URL parses with a nonempty scheme and host and an empty fragment; and the
empty raw link maps the base to the canonical serialisation of its own parse
with the fragment removed (which equals the base minus its fragment only up
to the parser's normalisation, e.g. scheme lowercasing). -/
theorem C7_amended_normalize (base link : Str) :
    (normalize_url base link = none ↔
      ¬ ∃ p, resolvedParse base link = .ok p ∧ p.scheme ≠ [] ∧ p.netloc ≠ []) ∧
    (∀ u, normalize_url base link = some u →
      ∃ q, urlparseE u [] = .ok q ∧ q.scheme ≠ [] ∧ q.netloc ≠ [] ∧
        q.fragment = []) ∧
    (normalize_url base [] =
      (match urlparseE base [] with
       | .ok p =>
         if p.scheme = [] ∨ p.netloc = [] then none
         else some (geturl { p with fragment := [] })
       | .error _ => none)) := by
  refine ⟨⟨?_, ?_⟩, ?_, ?_⟩
  · intro hnone
    rintro ⟨q, hq, hqs, hqn⟩
    unfold resolvedParse at hq
    cases hj : urljoinE base (pyStrip link) with
    | error e => rw [hj] at hq; cases hq
    | ok a =>
      rw [hj] at hq
      dsimp only at hq
      unfold normalize_url at hnone
      rw [hj] at hnone
      dsimp only at hnone
      rw [hq] at hnone
      dsimp only at hnone
      rw [if_neg (by
        rintro (h | h)
        · exact hqs h
        · exact hqn h)] at hnone
      cases hnone
  · intro hne
    unfold normalize_url
    cases hj : urljoinE base (pyStrip link) with
    | error e => rfl
    | ok a =>
      dsimp only
      cases hpp : urlparseE a [] with
      | error e => rfl
      | ok p =>
        dsimp only
        by_cases hcond : p.scheme = [] ∨ p.netloc = []
        · rw [if_pos hcond]
        · exfalso
          push_neg at hcond
          refine hne ⟨p, ?_, hcond.1, hcond.2⟩
          unfold resolvedParse
          rw [hj]
          exact hpp
  · intro u hu
    unfold normalize_url at hu
    cases hj : urljoinE base (pyStrip link) with
    | error e => rw [hj] at hu; cases hu
    | ok a =>
      rw [hj] at hu
      dsimp only at hu
      cases hpp : urlparseE a [] with
      | error e => rw [hpp] at hu; cases hu
      | ok p =>
        rw [hpp] at hu
        dsimp only at hu
        by_cases hcond : p.scheme = [] ∨ p.netloc = []
        · rw [if_pos hcond] at hu; cases hu
        · rw [if_neg hcond] at hu
          have hueq := Option.some.inj hu
          subst hueq
          push_neg at hcond
          exact geturl_reparse p (urlparseE_wf a p hpp) hcond.1 hcond.2
  · unfold normalize_url
    have hstrip : pyStrip [] = ([] : Str) := rfl
    rw [hstrip]
    by_cases hb : base = []
    · subst hb
      decide
    · have hj : urljoinE base [] = .ok base := by
        unfold urljoinE
        rw [if_neg hb]
        rw [if_pos rfl]
      rw [hj]
      dsimp only
      cases urlparseE base [] with
      | error e => rfl
      | ok p => rfl

/-- C7, witness: the non-`none` half of the amended theorem applied to a
concrete base and raw link containing a fragment. -/
theorem C7_witness :
    ∃ q, urlparseE "http://example.com/page.html".data [] = .ok q ∧
      q.scheme ≠ [] ∧ q.netloc ≠ [] ∧ q.fragment = [] :=
  (C7_amended_normalize "http://example.com".data
    "page.html#fragment".data).2.1 "http://example.com/page.html".data
    (by decide)

end Crawler
